import Mathlib

/-!
Verification of the `script-exec` healthcheck runner
(src/pkgs/script-exec/src/main.rs) against its specification.

The Rust program is shallowly embedded:
  * string manipulation is modelled over `List Char` (Rust `str::split`,
    `str::lines`, `Path::file_name`, `Path::file_stem`);
  * external script execution is modelled by an environment
    `Env : String -> PathView` telling, for each path, whether the path is
    missing, whether spawning fails (the `.expect` panic case), or which
    exit status / stdout / stderr / duration the run produces;
  * the concurrent worker pool of `main` is modelled as a small-step
    system over an explicit state (shared LIFO queue, per-worker phase,
    FIFO event channel, atomic success flag), driven by an arbitrary
    schedule (list of worker indices), which captures every interleaving
    the mutex-serialized queue admits.

The file is organized as definitions first, then theorems.
-/

namespace ScriptExec

/-! ## Character-level string utilities (Rust `str::split`, `str::lines`) -/

/-- Rust `str::split(c)`: split a character list at every occurrence of `c`.
Always returns at least one (possibly empty) part. -/
def splitOnChar (c : Char) : List Char → List (List Char)
  | [] => [[]]
  | x :: xs =>
    let r := splitOnChar c xs
    if x = c then [] :: r
    else
      match r with
      | [] => [[x]]
      | y :: ys => (x :: y) :: ys

/-- Interleave the separator `c` back between parts: inverse of `splitOnChar`. -/
def joinParts (c : Char) : List (List Char) → List Char
  | [] => []
  | [p] => p
  | p :: q :: ps => p ++ c :: joinParts c (q :: ps)

/-! ## CLI argument parsing (src/pkgs/script-exec/src/main.rs lines 48-62) -/

/-- Rust `parse_title_path_pair`: split the argument on every `=`; accept
exactly two parts. -/
def parse_title_path_pair (s : String) : Except String (String × String) :=
  let parts := splitOnChar '=' s.data
  if h : parts.length = 2 then
    .ok (⟨parts[0]⟩, ⟨parts[1]⟩)
  else
    .error "Each pair must be in the format title=path"

/-- Rust `parse_label_pair`: split the argument on every `:`; accept exactly
two parts. -/
def parse_label_pair (s : String) : Except String (String × String) :=
  let parts := splitOnChar ':' s.data
  if h : parts.length = 2 then
    .ok (⟨parts[0]⟩, ⟨parts[1]⟩)
  else
    .error "Key-value pair must be in the format key:value"

/-! ## Paths (Rust `Path::file_name` / `Path::file_stem`) -/

/-- Rust `Path::file_name` on a Unix path: the last component, where empty
components and `.` components are skipped; `none` when there is no last
component or it is `..`. -/
def pathFileName (p : List Char) : Option (List Char) :=
  let comps := (splitOnChar '/' p).filter (fun comp => comp ≠ [] ∧ comp ≠ ['.'])
  match comps.getLast? with
  | none => none
  | some last => if last = ['.', '.'] then none else some last

/-- Split a file name at its last `.`, returning the parts before and after;
`none` when the name contains no dot. Mirrors the rsplit in Rust
`split_file_at_dot`. -/
def lastDotSplit : List Char → Option (List Char × List Char)
  | [] => none
  | c :: cs =>
    match lastDotSplit cs with
    | some (b, a) => some (c :: b, a)
    | none => if c = '.' then some ([], cs) else none

/-- Rust `Path::file_stem` applied to a file name: the portion before the last
dot, except that a name with no dot, or whose only dot is leading, is kept
whole. -/
def stemOfName (name : List Char) : List Char :=
  match lastDotSplit name with
  | none => name
  | some ([], _) => name
  | some (b, _) => b

/-- Rust `Path::file_stem` on a Unix path string. -/
def pathFileStem (p : List Char) : Option (List Char) :=
  (pathFileName p).map stemOfName

/-! ## The `Script` structure (main.rs lines 193-213) -/

/-- A job: user-facing title plus filesystem path. -/
structure Script where
  title : String
  path : String
deriving DecidableEq, Repr

/-- Rust `Script::new`: derive the title from the path via `file_stem`,
falling back to the whole path. -/
def Script.new (path : String) : Script :=
  let title : String :=
    match pathFileStem path.data with
    | some stem => ⟨stem⟩
    | none => path
  { title := title, path := path }

/-! ## Lifecycle events and the execution environment -/

/-- `OutputCommand` (src/pkgs/script-exec/src/output_manager.rs, as used by
main.rs): the lifecycle events sent to the Output Manager. Durations are
modelled as natural numbers. -/
inductive OutputCommand where
  | AddTask (title : String)
  | CompleteTask (title : String) (success : Bool) (duration : Nat) (output : Option String)
  | Error (title : String) (message : String)
  | Terminate
deriving DecidableEq, Repr

/-- Captured result of running one external script: exit-status success,
stdout, stderr, wall-clock duration. -/
structure ExecOutput where
  success : Bool
  stdout : String
  stderr : String
  durationMs : Nat
deriving DecidableEq, Repr

/-- What the operating system does for a given path: the path does not exist
(`Path::exists` is false), the spawn fails (`Command::output` returns `Err`,
so `.expect` panics), or the program runs and produces an `ExecOutput`. -/
inductive PathView where
  | missing
  | spawnFail
  | runs (result : ExecOutput)
deriving DecidableEq

/-- The execution environment: one fixed `PathView` per path string. -/
abbrev Env := String → PathView

/-- Strip one trailing occurrence of `c`, if present. -/
def stripTrailing (c : Char) (l : List Char) : List Char :=
  if l.getLast? = some c then l.dropLast else l

/-- Rust `str::lines`: split on newline, dropping an optional final line
ending, and strip a trailing carriage return from each line. -/
def rustLines (s : String) : List String :=
  if s.data = [] then []
  else ((splitOnChar '\n' (stripTrailing '\n' s.data)).map (stripTrailing '\r')).map
    (fun cs => ⟨cs⟩)

/-- Rust `Vec::join("\n")`: concatenate with a newline between elements. -/
def joinLines : List String → String
  | [] => ""
  | [x] => x
  | x :: y :: ys => x ++ "\n" ++ joinLines (y :: ys)

/-! ## `run_script` (main.rs lines 141-190) -/

/-- The `output_lines` vector built by `run_script` on failure: an
`Output:` header plus stdout lines when stdout is non-empty, then an
`Error:` header plus stderr lines when stderr is non-empty. -/
def failureOutputLines (result : ExecOutput) : List String :=
  (if result.stdout ≠ "" then "Output:" :: rustLines result.stdout else []) ++
  (if result.stderr ≠ "" then "Error:" :: rustLines result.stderr else [])

/-- `output_lines.join("\n")` from `run_script`. -/
def failureOutput (result : ExecOutput) : String :=
  joinLines (failureOutputLines result)

/-- The diagnostic text as the specification words it: the non-empty blocks
(each a header line followed by the captured text split into lines), each
block joined by newlines, and the blocks themselves joined by newlines. -/
def specFailureOutput (result : ExecOutput) : String :=
  let blocks : List (List String) :=
    (if result.stdout ≠ "" then [["Output:"] ++ rustLines result.stdout] else []) ++
    (if result.stderr ≠ "" then [["Error:"] ++ rustLines result.stderr] else [])
  joinLines (blocks.map joinLines)

/-- Result of one `run_script` call: either the process panicked (the
`.expect` on `Command::output`), with the events already sent before the
panic, or the call returned, with its events and whether it stored `false`
into the shared `all_successful` flag. -/
inductive RunResult where
  | panicked (emitted : List OutputCommand)
  | done (emitted : List OutputCommand) (clearedFlag : Bool)
deriving DecidableEq

/-- Rust `run_script`: check existence, emit `Error` for a missing path
(clearing the flag), otherwise emit `AddTask`, run the program (panicking if
the spawn fails), and emit `CompleteTask` whose `output` is populated only on
failure (clearing the flag on failure). -/
def run_script (env : Env) (script : Script) : RunResult :=
  match env script.path with
  | .missing =>
      .done [.Error script.title (script.path ++ " does not exist")] true
  | .spawnFail =>
      .panicked [.AddTask script.title]
  | .runs result =>
      let output : Option String :=
        if result.success then none else some (failureOutput result)
      .done [.AddTask script.title,
             .CompleteTask script.title result.success result.durationMs output]
        (!result.success)

/-! ## The worker-pool system (main.rs lines 76-139)

Each of the `J` spawned workers loops: lock the shared script vector, pop
from its end (break when empty), then run `run_script` on the claimed
script. A worker is in one of four phases; a schedule (list of worker
indices) chooses which worker performs its next atomic action, covering
every interleaving the mutex admits. `run_script` is split into its three
observable actions: the missing-path `Error` send, the `AddTask` send, and
the `CompleteTask` send. -/

inductive WorkerPhase where
  | idle
  | claimed (s : Script)
  | started (s : Script)
  | stopped
deriving DecidableEq

/-- Global state: the mutex-protected script vector, the phase of each worker
thread, the FIFO event channel as seen by the single consumer, and the
shared atomic `all_successful` flag. -/
structure SysState where
  queue : List Script
  phases : List WorkerPhase
  events : List OutputCommand
  allSuccessful : Bool
deriving DecidableEq

/-- Worker action while idle: lock the queue; pop the last script (Rust
`Vec::pop`) and claim it, or stop when the queue is empty. -/
def stepIdle (st : SysState) (w : Nat) : SysState :=
  match st.queue.getLast? with
  | none => { st with phases := st.phases.set w .stopped }
  | some s =>
      { st with queue := st.queue.dropLast, phases := st.phases.set w (.claimed s) }

/-- Worker action right after claiming script `s`: for a missing path send
`Error` and store `false` into the flag (back to idle); otherwise send
`AddTask` and start the program. -/
def stepClaimed (env : Env) (st : SysState) (w : Nat) (s : Script) : SysState :=
  match env s.path with
  | .missing =>
      { st with
        events := st.events ++ [.Error s.title (s.path ++ " does not exist")],
        allSuccessful := false,
        phases := st.phases.set w .idle }
  | _ =>
      { st with
        events := st.events ++ [.AddTask s.title],
        phases := st.phases.set w (.started s) }

/-- Worker action after starting script `s`: when the program runs, send
`CompleteTask` (output populated only on failure) and store `false` into the
flag on failure (back to idle). A failing spawn panics the process, which we
model as the worker making no further step. -/
def stepStarted (env : Env) (st : SysState) (w : Nat) (s : Script) : SysState :=
  match env s.path with
  | .runs result =>
      { st with
        events := st.events ++
          [.CompleteTask s.title result.success result.durationMs
            (if result.success then none else some (failureOutput result))],
        allSuccessful := st.allSuccessful && result.success,
        phases := st.phases.set w .idle }
  | _ => st

/-- One atomic action of worker `w` (no-op for an out-of-range index or a
stopped worker). -/
def stepW (env : Env) (st : SysState) (w : Nat) : SysState :=
  match st.phases[w]? with
  | none => st
  | some ph =>
    match ph with
    | .stopped => st
    | .idle => stepIdle st w
    | .claimed s => stepClaimed env st w s
    | .started s => stepStarted env st w s

/-- Run a whole schedule of worker actions. -/
def exec (env : Env) (st : SysState) : List Nat → SysState
  | [] => st
  | w :: ws => exec env (stepW env st w) ws

/-- The script list `main` builds from the parsed pairs (main.rs lines 93-97,
before the reversal). -/
def scriptsOf (pairs : List (String × String)) : List Script :=
  pairs.map (fun tp => Script.mk tp.1 tp.2)

/-- The state right after `main` built the reversed script vector and spawned
`jobs` worker threads (main.rs lines 92-125). -/
def initState (pairs : List (String × String)) (jobs : Nat) : SysState :=
  { queue := (scriptsOf pairs).reverse,
    phases := List.replicate jobs .idle,
    events := [],
    allSuccessful := true }

/-- All worker threads have returned, so the joins in `main` all complete. -/
def allStopped (st : SysState) : Prop :=
  ∀ ph ∈ st.phases, ph = WorkerPhase.stopped

instance (st : SysState) : Decidable (allStopped st) :=
  inferInstanceAs (Decidable (∀ ph ∈ st.phases, ph = WorkerPhase.stopped))

/-- Outcome of one whole process run: the event stream the Output Manager
consumed and the process exit code. -/
structure MainResult where
  events : List OutputCommand
  exitCode : Nat
deriving DecidableEq

/-- Rust `main` for a given parsed job list, worker count and schedule: an
empty list exits 1 immediately (before creating the manager or any worker);
otherwise the pool runs to the scheduled state, `Terminate` is sent after
all joins, and the exit code reads the `all_successful` flag. The result
models a finished run when the schedule makes `allStopped` hold. -/
def mainRun (env : Env) (pairs : List (String × String)) (jobs : Nat)
    (sched : List Nat) : MainResult :=
  if pairs.isEmpty then
    { events := [], exitCode := 1 }
  else
    let final := exec env (initState pairs jobs) sched
    { events := final.events ++ [.Terminate],
      exitCode := if final.allSuccessful then 0 else 1 }

/-! ## Event classification and per-job outcomes -/

/-- Terminal events: `CompleteTask` or `Error` (one expected per job). -/
def isTerminalEvent : OutputCommand → Bool
  | .CompleteTask _ _ _ _ => true
  | .Error _ _ => true
  | _ => false

/-- The terminal events of an event stream. -/
def terminalEvents (evs : List OutputCommand) : List OutputCommand :=
  evs.filter isTerminalEvent

/-- Events that flip the `all_successful` flag: a missing-path `Error` or a
failed `CompleteTask`. -/
def isFailureEvent : OutputCommand → Bool
  | .Error _ _ => true
  | .CompleteTask _ success _ _ => !success
  | _ => false

/-- The terminal event `run_script` produces for a script under `env`. For a
failing spawn no terminal event is ever produced (the process panics); the
non-terminal `AddTask` stands in, as it is what was last sent. -/
def termEventOf (env : Env) (s : Script) : OutputCommand :=
  match env s.path with
  | .missing => .Error s.title (s.path ++ " does not exist")
  | .spawnFail => .AddTask s.title
  | .runs result =>
      .CompleteTask s.title result.success result.durationMs
        (if result.success then none else some (failureOutput result))

/-- Whether a job counts as successful: its path exists, the spawn works and
the script exits with status zero. -/
def jobOk (env : Env) (s : Script) : Bool :=
  match env s.path with
  | .runs result => result.success
  | _ => false

/-- The script a worker currently holds, if any. -/
def heldScript : WorkerPhase → Option Script
  | .claimed s => some s
  | .started s => some s
  | _ => none

/-- Scripts currently held by some worker. -/
def heldScripts (st : SysState) : List Script :=
  st.phases.filterMap heldScript

/-- Scripts not yet fully processed: still queued or held by a worker. -/
def pendingScripts (st : SysState) : List Script :=
  st.queue ++ heldScripts st

/-- The system invariant, for input job list `input`:
  1. the multiset of terminal events already sent, together with the
     terminal events the pending scripts will produce, is exactly one
     terminal event per input job;
  2. the `all_successful` flag is `false` exactly when some failure event
     has been sent;
  3. workers never send `Terminate`;
  4. once some worker has stopped, the queue is empty (a worker only stops
     on seeing the empty queue, and the queue never grows). -/
def Inv (env : Env) (input : List Script) (st : SysState) : Prop :=
  ((terminalEvents st.events : Multiset OutputCommand) +
      ((pendingScripts st).map (termEventOf env) : Multiset OutputCommand) =
    ((input.map (termEventOf env) : List OutputCommand) : Multiset OutputCommand)) ∧
  st.allSuccessful = !(st.events.any isFailureEvent) ∧
  OutputCommand.Terminate ∉ st.events ∧
  ((∃ ph ∈ st.phases, ph = WorkerPhase.stopped) → st.queue = [])

/-! # Theorems -/

/-! ## Splitting lemmas -/

theorem splitOnChar_ne_nil (c : Char) (l : List Char) : splitOnChar c l ≠ [] := by
  induction l with
  | nil => simp [splitOnChar]
  | cons x xs ih =>
    simp only [splitOnChar]
    split
    · simp
    · cases h : splitOnChar c xs with
      | nil => simp
      | cons y ys => simp [h]

/-- The number of parts produced by `splitOnChar` is one more than the number
of occurrences of the separator. -/
theorem splitOnChar_length (c : Char) (l : List Char) :
    (splitOnChar c l).length = l.count c + 1 := by
  induction l with
  | nil => simp [splitOnChar]
  | cons x xs ih =>
    simp only [splitOnChar]
    by_cases hx : x = c
    · simp [hx, List.count_cons, ih]
    · cases h : splitOnChar c xs with
      | nil => exact absurd h (splitOnChar_ne_nil c xs)
      | cons y ys =>
        simp [hx, List.count_cons, h] at ih ⊢
        omega

/-- No part produced by `splitOnChar c` contains the separator `c`. -/
theorem splitOnChar_not_mem (c : Char) (l : List Char) :
    ∀ part ∈ splitOnChar c l, c ∉ part := by
  induction l with
  | nil => simp [splitOnChar]
  | cons x xs ih =>
    simp only [splitOnChar]
    by_cases hx : x = c
    · simp only [if_pos hx]
      intro part hpart
      rcases List.mem_cons.mp hpart with h | h
      · simp [h]
      · exact ih part h
    · simp only [if_neg hx]
      cases h : splitOnChar c xs with
      | nil => exact absurd h (splitOnChar_ne_nil c xs)
      | cons y ys =>
        intro part hpart
        rcases List.mem_cons.mp hpart with hp | hp
        · subst hp
          intro hmem
          rcases List.mem_cons.mp hmem with h1 | h1
          · exact hx h1.symm
          · exact ih y (h ▸ List.mem_cons_self y ys) h1
        · exact ih part (h ▸ List.mem_cons_of_mem y hp)

/-- Joining the parts of a split recovers the original character list. -/
theorem joinParts_splitOnChar (c : Char) (l : List Char) :
    joinParts c (splitOnChar c l) = l := by
  induction l with
  | nil => simp [splitOnChar, joinParts]
  | cons x xs ih =>
    simp only [splitOnChar]
    by_cases hx : x = c
    · rw [if_pos hx]
      cases h : splitOnChar c xs with
      | nil => exact absurd h (splitOnChar_ne_nil c xs)
      | cons y ys =>
        rw [h] at ih
        simp [joinParts, ih, hx]
    · rw [if_neg hx]
      cases h : splitOnChar c xs with
      | nil => exact absurd h (splitOnChar_ne_nil c xs)
      | cons y ys =>
        rw [h] at ih
        cases ys with
        | nil => simpa [joinParts] using congrArg (x :: ·) ih
        | cons z zs =>
          simp only [joinParts] at ih ⊢
          simp [← ih]

/-- Splitting into exactly two parts recovers the original list around one
occurrence of the separator. -/
theorem splitOnChar_eq_pair (c : Char) (l a b : List Char)
    (h : splitOnChar c l = [a, b]) : l = a ++ c :: b := by
  have := joinParts_splitOnChar c l
  rw [h] at this
  simpa [joinParts] using this.symm

/-! ## Joining lemmas -/

theorem joinLines_append (xs ys : List String) (hx : xs ≠ []) (hy : ys ≠ []) :
    joinLines (xs ++ ys) = joinLines xs ++ "\n" ++ joinLines ys := by
  induction xs with
  | nil => exact absurd rfl hx
  | cons x xs ih =>
    cases xs with
    | nil =>
      obtain ⟨y, ys, rfl⟩ := List.exists_cons_of_ne_nil hy
      simp [joinLines]
    | cons x2 xs2 =>
      have ih2 := ih (by simp)
      show joinLines (x :: ((x2 :: xs2) ++ ys)) = _
      rw [List.cons_append]
      rw [show joinLines (x :: x2 :: (xs2 ++ ys)) =
            x ++ "\n" ++ joinLines (x2 :: (xs2 ++ ys)) from rfl]
      rw [show (x2 :: (xs2 ++ ys)) = (x2 :: xs2) ++ ys from rfl, ih2]
      rw [show joinLines (x :: x2 :: xs2) = x ++ "\n" ++ joinLines (x2 :: xs2) from rfl]
      simp [String.append_assoc]

/-- The flat line list built by `run_script` and the block
structure described by the specification denote the same string. -/
theorem failureOutput_eq_spec (result : ExecOutput) :
    failureOutput result = specFailureOutput result := by
  unfold failureOutput specFailureOutput failureOutputLines
  by_cases h1 : result.stdout = "" <;> by_cases h2 : result.stderr = ""
  · simp [h1, h2, joinLines]
  · simp [h1, h2, joinLines]
  · simp [h1, h2, joinLines]
  · rw [if_pos h1, if_pos h2, if_pos h1, if_pos h2]
    rw [joinLines_append _ _ (by simp) (by simp)]
    simp [joinLines]

/-! ## Claims about `run_script` in isolation (C3, C4, C8) -/

/-- C3: for every executed job, the `output` field of the `CompleteTask` event is
`none` exactly when the exit status of the script is success; on failure it is
the newline-joined concatenation of the non-empty stdout block (header
`Output:`) followed by the non-empty stderr block (header `Error:`). -/
theorem complete_output_only_on_failure (env : Env) (script : Script)
    (result : ExecOutput) (h : env script.path = .runs result) :
    ∃ out : Option String,
      run_script env script =
        .done [.AddTask script.title,
               .CompleteTask script.title result.success result.durationMs out]
          (!result.success) ∧
      (out = none ↔ result.success = true) ∧
      (result.success = false → out = some (specFailureOutput result)) := by
  refine ⟨if result.success then none else some (failureOutput result), ?_, ?_, ?_⟩
  · simp [run_script, h]
  · cases hs : result.success <;> simp [hs]
  · intro hs
    simp [hs, failureOutput_eq_spec]

/-- Witness for C3, realizing the concrete example of the claim: exit
status 1 with stdout `a\nb` and empty stderr yields
`output = "Output:\na\nb"`. -/
theorem complete_output_only_on_failure_witness :
    ∃ out : Option String,
      run_script (fun _ => PathView.runs ⟨false, "a\nb", "", 1⟩) (Script.mk "t" "p") =
        .done [.AddTask "t", .CompleteTask "t" false 1 out] true ∧
      (out = none ↔ false = true) ∧
      out = some "Output:\na\nb" := by
  obtain ⟨out, h1, h2, h3⟩ :=
    complete_output_only_on_failure (fun _ => PathView.runs ⟨false, "a\nb", "", 1⟩)
      (Script.mk "t" "p") ⟨false, "a\nb", "", 1⟩ rfl
  refine ⟨out, by simpa using h1, by simpa using h2, ?_⟩
  rw [h3 rfl]
  rfl

/-- C4: for a job whose path does not exist, `run_script` returns (rather
than panicking) after emitting exactly one event, an `Error` carrying the
descriptive message, clears the success flag, and emits neither an
`AddTask` (Queued) nor a `CompleteTask` event — the program is never
invoked. -/
theorem missing_path_error (env : Env) (script : Script)
    (h : env script.path = .missing) :
    ∃ emitted, run_script env script = .done emitted true ∧
      emitted.length = 1 ∧
      (∃ msg, emitted = [.Error script.title msg] ∧
        msg = script.path ++ " does not exist") ∧
      (∀ t, OutputCommand.AddTask t ∉ emitted) ∧
      (∀ t success d o, OutputCommand.CompleteTask t success d o ∉ emitted) := by
  refine ⟨[.Error script.title (script.path ++ " does not exist")], ?_, rfl, ?_, ?_, ?_⟩
  · simp [run_script, h]
  · exact ⟨_, rfl, rfl⟩
  · intro t
    simp
  · intro t success d o
    simp

/-- Witness for C4 at a concrete missing path. -/
theorem missing_path_error_witness :
    ∃ emitted,
      run_script (fun _ => PathView.missing) (Script.mk "t" "p") = .done emitted true ∧
      emitted.length = 1 ∧
      (∃ msg, emitted = [.Error "t" msg] ∧ msg = "p" ++ " does not exist") ∧
      (∀ t, OutputCommand.AddTask t ∉ emitted) ∧
      (∀ t success d o, OutputCommand.CompleteTask t success d o ∉ emitted) :=
  missing_path_error (fun _ => PathView.missing) (Script.mk "t" "p") rfl

/-- C8: if the path of the job exists but the program cannot be spawned,
`run_script` panics — aborting the whole process — after having sent only
the `AddTask` event: it does not return, and it emits no `Error` event for
the job. -/
theorem spawn_failure_panics (env : Env) (script : Script)
    (h : env script.path = .spawnFail) :
    run_script env script = .panicked [.AddTask script.title] ∧
    (∀ emitted cleared, run_script env script ≠ .done emitted cleared) ∧
    (∀ emitted, run_script env script = .panicked emitted →
      ∀ t m, OutputCommand.Error t m ∉ emitted) := by
  have hrun : run_script env script = .panicked [.AddTask script.title] := by
    simp [run_script, h]
  refine ⟨hrun, ?_, ?_⟩
  · intro emitted cleared hdone
    rw [hrun] at hdone
    exact RunResult.noConfusion hdone
  · intro emitted hem t m
    rw [hrun] at hem
    cases hem
    simp

/-- Witness for C8 at a concrete spawn-failing path. -/
theorem spawn_failure_panics_witness :
    run_script (fun _ => PathView.spawnFail) (Script.mk "t" "p") =
      .panicked [.AddTask "t"] ∧
    (∀ emitted cleared,
      run_script (fun _ => PathView.spawnFail) (Script.mk "t" "p") ≠ .done emitted cleared) ∧
    (∀ emitted,
      run_script (fun _ => PathView.spawnFail) (Script.mk "t" "p") = .panicked emitted →
      ∀ t m, OutputCommand.Error t m ∉ emitted) :=
  spawn_failure_panics (fun _ => PathView.spawnFail) (Script.mk "t" "p") rfl

/-! ## Claim about the CLI pair parsers (C10) -/

/-- C10: `parse_title_path_pair` succeeds exactly on inputs with exactly one
`=`, splitting there (so a title or path containing `=` is rejected), and
`parse_label_pair` likewise accepts exactly the strings with exactly one
`:`. -/
theorem pair_parsers_accept_single_separator (s : String) :
    ((∃ t p, parse_title_path_pair s = .ok (t, p)) ↔ s.data.count '=' = 1) ∧
    (∀ t p, parse_title_path_pair s = .ok (t, p) →
      s.data = t.data ++ '=' :: p.data ∧ '=' ∉ t.data ∧ '=' ∉ p.data) ∧
    (s.data.count '=' ≠ 1 →
      parse_title_path_pair s = .error "Each pair must be in the format title=path") ∧
    ((∃ k v, parse_label_pair s = .ok (k, v)) ↔ s.data.count ':' = 1) ∧
    (∀ k v, parse_label_pair s = .ok (k, v) →
      s.data = k.data ++ ':' :: v.data ∧ ':' ∉ k.data ∧ ':' ∉ v.data) ∧
    (s.data.count ':' ≠ 1 →
      parse_label_pair s = .error "Key-value pair must be in the format key:value") := by
  have hlen : ∀ c : Char, (splitOnChar c s.data).length = 2 ↔ s.data.count c = 1 := by
    intro c
    rw [splitOnChar_length]
    omega
  have hdefT : parse_title_path_pair s =
      (if h : (splitOnChar '=' s.data).length = 2 then
        (Except.ok ((⟨(splitOnChar '=' s.data)[0]⟩ : String),
          (⟨(splitOnChar '=' s.data)[1]⟩ : String)) : Except String (String × String))
      else .error "Each pair must be in the format title=path") := rfl
  have hdefL : parse_label_pair s =
      (if h : (splitOnChar ':' s.data).length = 2 then
        (Except.ok ((⟨(splitOnChar ':' s.data)[0]⟩ : String),
          (⟨(splitOnChar ':' s.data)[1]⟩ : String)) : Except String (String × String))
      else .error "Key-value pair must be in the format key:value") := rfl
  have hok : ∀ (c : Char) (err : String) (t p : String),
      (if h : (splitOnChar c s.data).length = 2 then
        (Except.ok ((⟨(splitOnChar c s.data)[0]⟩ : String), (⟨(splitOnChar c s.data)[1]⟩ : String)) :
          Except String (String × String))
      else .error err) = .ok (t, p) →
      s.data = t.data ++ c :: p.data ∧ c ∉ t.data ∧ c ∉ p.data := by
    intro c err t p h
    split at h
    · rename_i h2
      obtain ⟨a, b, hab⟩ := List.length_eq_two.mp h2
      injection h with h
      injection h with ht hp
      subst ht
      subst hp
      simp only [hab, List.getElem_cons_zero, List.getElem_cons_succ]
      refine ⟨splitOnChar_eq_pair c s.data a b hab, ?_, ?_⟩
      · exact splitOnChar_not_mem c s.data a (hab ▸ by simp)
      · exact splitOnChar_not_mem c s.data b (hab ▸ by simp)
    · exact Except.noConfusion h
  refine ⟨?_, ?_, ?_, ?_, ?_, ?_⟩
  · constructor
    · rintro ⟨t, p, h⟩
      rw [hdefT] at h
      split at h
      · rename_i h2
        exact (hlen '=').mp h2
      · exact Except.noConfusion h
    · intro hc
      have h2 := (hlen '=').mpr hc
      refine ⟨⟨(splitOnChar '=' s.data).get ⟨0, by omega⟩⟩,
              ⟨(splitOnChar '=' s.data).get ⟨1, by omega⟩⟩, ?_⟩
      rw [hdefT, dif_pos h2]
      rfl
  · intro t p h
    exact hok '=' "Each pair must be in the format title=path" t p (hdefT ▸ h)
  · intro hc
    rw [hdefT, dif_neg (fun h2 => hc ((hlen '=').mp h2))]
  · constructor
    · rintro ⟨k, v, h⟩
      rw [hdefL] at h
      split at h
      · rename_i h2
        exact (hlen ':').mp h2
      · exact Except.noConfusion h
    · intro hc
      have h2 := (hlen ':').mpr hc
      refine ⟨⟨(splitOnChar ':' s.data).get ⟨0, by omega⟩⟩,
              ⟨(splitOnChar ':' s.data).get ⟨1, by omega⟩⟩, ?_⟩
      rw [hdefL, dif_pos h2]
      rfl
  · intro k v h
    exact hok ':' "Key-value pair must be in the format key:value" k v (hdefL ▸ h)
  · intro hc
    rw [hdefL, dif_neg (fun h2 => hc ((hlen ':').mp h2))]

/-- Witness for C10: `a=b` is accepted and split at the `=`; `a:b` is
accepted by the label parser. -/
theorem pair_parsers_accept_single_separator_witness :
    ("a=b".data = "a".data ++ '=' :: "b".data ∧ '=' ∉ "a".data ∧ '=' ∉ "b".data) ∧
    ("k:v".data = "k".data ++ ':' :: "v".data ∧ ':' ∉ "k".data ∧ ':' ∉ "v".data) :=
  ⟨(pair_parsers_accept_single_separator "a=b").2.1 "a" "b" rfl,
   (pair_parsers_accept_single_separator "k:v").2.2.2.2.1 "k" "v" rfl⟩

/-! ## Claim about titles derived by `Script::new` (C9) -/

theorem lastDotSplit_eq_none_iff (l : List Char) :
    lastDotSplit l = none ↔ '.' ∉ l := by
  induction l with
  | nil => simp [lastDotSplit]
  | cons c cs ih =>
    simp only [lastDotSplit]
    cases h : lastDotSplit cs with
    | some ba =>
      have hmem : '.' ∈ cs := by
        by_contra hno
        rw [ih.mpr hno] at h
        exact Option.noConfusion h
      simp [List.mem_cons, hmem]
    | none =>
      by_cases hc : c = '.'
      · simp [hc]
      · have : ('.' : Char) ≠ c := fun hh => hc hh.symm
        simp [hc, ih.mp h, this]

theorem lastDotSplit_eq_some (l b a : List Char) (h : lastDotSplit l = some (b, a)) :
    l = b ++ '.' :: a ∧ '.' ∉ a := by
  induction l generalizing b a with
  | nil => simp [lastDotSplit] at h
  | cons c cs ih =>
    simp only [lastDotSplit] at h
    cases h2 : lastDotSplit cs with
    | some ba =>
      obtain ⟨b1, a1⟩ := ba
      rw [h2] at h
      injection h with h
      obtain ⟨hb, ha⟩ := Prod.mk.inj h
      obtain ⟨hcs, hna⟩ := ih b1 a1 h2
      subst hb
      subst ha
      rw [hcs]
      exact ⟨rfl, hna⟩
    | none =>
      rw [h2] at h
      by_cases hc : c = '.'
      · rw [if_pos hc] at h
        injection h with h
        obtain ⟨hb, ha⟩ := Prod.mk.inj h
        subst hb
        subst ha
        subst hc
        exact ⟨rfl, (lastDotSplit_eq_none_iff cs).mp h2⟩
      · rw [if_neg hc] at h
        exact Option.noConfusion h

/-- Counterexample to C9 as stated: the title `Script::new` derives from
`checks/db.sh` is `db` (the file stem), not the final path segment
`db.sh`. -/
theorem title_not_final_segment :
    (Script.new "checks/db.sh").title = "db" ∧
    (Script.new "checks/db.sh").title ≠ "db.sh" := by
  constructor <;> decide

/-- C9 (amended): the title `Script::new` derives is the file stem of the
final segment of the path: when the path has a final segment `name`, the title
is either `name` stripped of its last `.`-separated extension (when `name`
has a dot after a non-empty prefix) or the whole `name` (when it has no
such dot); when the path has no final segment the title is the whole
path. -/
theorem title_is_file_stem (p : String) :
    (pathFileName p.data = none → (Script.new p).title = p) ∧
    (∀ name, pathFileName p.data = some name →
      (((Script.new p).title.data ≠ [] ∧
        ∃ ext, name = (Script.new p).title.data ++ '.' :: ext ∧ '.' ∉ ext) ∨
      ((Script.new p).title.data = name ∧
        ¬∃ b ext, b ≠ [] ∧ name = b ++ '.' :: ext ∧ '.' ∉ ext))) := by
  constructor
  · intro h
    simp [Script.new, pathFileStem, h]
  · intro name h
    have htitle : (Script.new p).title.data = stemOfName name := by
      simp [Script.new, pathFileStem, h]
    rw [htitle]
    unfold stemOfName
    cases hsplit : lastDotSplit name with
    | none =>
      right
      refine ⟨rfl, ?_⟩
      rintro ⟨b, ext, hb, heq, hext⟩
      exact (lastDotSplit_eq_none_iff name).mp hsplit (heq ▸ by simp)
    | some ba =>
      obtain ⟨b1, a1⟩ := ba
      obtain ⟨hname, hna⟩ := lastDotSplit_eq_some name b1 a1 hsplit
      cases b1 with
      | nil =>
        right
        simp only [List.nil_append] at hname
        refine ⟨rfl, ?_⟩
        rintro ⟨b, ext, hbne, heq, hext⟩
        obtain ⟨x, b2, rfl⟩ := List.exists_cons_of_ne_nil hbne
        rw [heq] at hname
        have hx := (List.cons.injEq x (b2 ++ '.' :: ext) '.' a1).mp hname
        exact hna (by rw [← hx.2]; simp)
      | cons x b2 =>
        left
        exact ⟨by simp, a1, hname, hna⟩

/-- Witness for C9 at the concrete path `checks/db.sh`. -/
theorem title_is_file_stem_witness :
    (Script.new "checks/db.sh").title = "db" ∧
    ((((Script.new "checks/db.sh").title.data ≠ [] ∧
      ∃ ext, "db.sh".data = (Script.new "checks/db.sh").title.data ++ '.' :: ext ∧
        '.' ∉ ext) ∨
    ((Script.new "checks/db.sh").title.data = "db.sh".data ∧
      ¬∃ b ext, b ≠ [] ∧ "db.sh".data = b ++ '.' :: ext ∧ '.' ∉ ext))) :=
  ⟨by decide, (title_is_file_stem "checks/db.sh").2 "db.sh".data (by decide)⟩

/-! ## Multiset and boolean helper lemmas for the system invariant -/

theorem mset_filterMap_cons {α β : Type} (f : α → Option β) (a : α) (l : List α) :
    ((List.filterMap f (a :: l) : List β) : Multiset β) =
      ((f a).toList : Multiset β) + ((List.filterMap f l : List β) : Multiset β) := by
  cases h : f a <;> simp [List.filterMap_cons, h]

theorem mset_filterMap_set {α β : Type} (f : α → Option β) (l : List α) (w : Nat) (v : α)
    (h : w < l.length) :
    ((List.filterMap f (l.set w v) : List β) : Multiset β) +
        ((f (l.get ⟨w, h⟩)).toList : Multiset β) =
      ((List.filterMap f l : List β) : Multiset β) + ((f v).toList : Multiset β) := by
  induction l generalizing w with
  | nil => simp at h
  | cons a l ih =>
    cases w with
    | zero =>
      simp only [List.set_cons_zero, List.get_cons_zero]
      rw [mset_filterMap_cons, mset_filterMap_cons]
      abel
    | succ w =>
      have hw : w < l.length := by simpa using h
      simp only [List.set_cons_succ, List.get_cons_succ]
      rw [mset_filterMap_cons, mset_filterMap_cons]
      rw [add_assoc, add_assoc, ih w hw]

theorem any_congr_mem {α : Type} (l : List α) (p q : α → Bool)
    (h : ∀ a ∈ l, p a = q a) : l.any p = l.any q := by
  induction l with
  | nil => rfl
  | cons a l ih =>
    simp only [List.any_cons]
    rw [h a (by simp), ih (fun b hb => h b (by simp [hb]))]

theorem any_map_general {α β : Type} (f : α → β) (l : List α) (p : β → Bool) :
    (l.map f).any p = l.any (fun a => p (f a)) := by
  induction l with
  | nil => rfl
  | cons a l ih => simp [List.any_cons, ih]

theorem perm_any {α : Type} {l₁ l₂ : List α} (h : l₁.Perm l₂) (p : α → Bool) :
    l₁.any p = l₂.any p := by
  cases h1 : l₁.any p with
  | true =>
    obtain ⟨a, ha, hpa⟩ := List.any_eq_true.mp h1
    exact (List.any_eq_true.mpr ⟨a, h.mem_iff.mp ha, hpa⟩).symm
  | false =>
    cases h2 : l₂.any p with
    | false => rfl
    | true =>
      obtain ⟨a, ha, hpa⟩ := List.any_eq_true.mp h2
      rw [List.any_eq_false] at h1
      exact absurd hpa (by simpa using h1 a (h.mem_iff.mpr ha))

theorem not_any_not_eq_all {α : Type} (l : List α) (p : α → Bool) :
    (!l.any fun a => !p a) = l.all p := by
  induction l with
  | nil => rfl
  | cons a l ih =>
    simp only [List.any_cons, List.all_cons, Bool.not_or, ih]
    cases p a <;> simp

/-- A failure event is always terminal. -/
theorem isFailure_imp_isTerminal (e : OutputCommand)
    (h : isFailureEvent e = true) : isTerminalEvent e = true := by
  cases e <;> simp_all [isFailureEvent, isTerminalEvent]

/-- Failure events survive the restriction to terminal events. -/
theorem any_isFailure_terminal (l : List OutputCommand) :
    (terminalEvents l).any isFailureEvent = l.any isFailureEvent := by
  unfold terminalEvents
  rw [List.any_filter]
  refine any_congr_mem l _ _ (fun e _ => ?_)
  cases e <;> simp [isTerminalEvent, isFailureEvent]

/-- Updating one worker phase moves at most one held script, in multiset
terms: held scripts after the update, plus the script the old phase held,
equal the held scripts before, plus the script the new phase holds. -/
theorem held_list_mset (phases : List WorkerPhase) (w : Nat) (ph v : WorkerPhase)
    (hw : phases[w]? = some ph) :
    (((phases.set w v).filterMap heldScript : List Script) : Multiset Script) +
        (((heldScript ph).toList : List Script) : Multiset Script) =
      ((phases.filterMap heldScript : List Script) : Multiset Script) +
        (((heldScript v).toList : List Script) : Multiset Script) := by
  obtain ⟨hlt, hget⟩ := List.getElem?_eq_some.mp hw
  have hms := mset_filterMap_set heldScript phases w v hlt
  rw [List.get_eq_getElem] at hms
  rw [hget] at hms
  exact hms

/-- The queue with its last element popped, in multiset terms. -/
theorem queue_pop_mset (queue : List Script) (s : Script)
    (hq : queue.getLast? = some s) :
    ((queue.dropLast : List Script) : Multiset Script) + ({s} : Multiset Script) =
      ((queue : List Script) : Multiset Script) := by
  have hne : queue ≠ [] := by
    intro h
    rw [h] at hq
    exact Option.noConfusion hq
  have hlast : queue.getLast hne = s := by
    have := List.getLast?_eq_getLast queue hne
    rw [this] at hq
    exact Option.some.inj hq
  have hdecomp := List.dropLast_append_getLast hne
  rw [hlast] at hdecomp
  calc ((queue.dropLast : List Script) : Multiset Script) + ({s} : Multiset Script)
      = ((queue.dropLast ++ [s] : List Script) : Multiset Script) := by
        rw [← Multiset.coe_add]
        rfl
    _ = ((queue : List Script) : Multiset Script) := by rw [hdecomp]

/-- Appending one event to the channel extends the terminal events by that
event when it is terminal and leaves them unchanged otherwise. -/
theorem terminalEvents_append_one (evs : List OutputCommand) (e : OutputCommand) :
    terminalEvents (evs ++ [e]) =
      terminalEvents evs ++ (if isTerminalEvent e then [e] else []) := by
  unfold terminalEvents
  rw [List.filter_append]
  congr 1
  cases he : isTerminalEvent e <;> simp [List.filter, he]

/-- The pending multiset, decomposed into queue and held parts. -/
theorem pending_mset (st : SysState) :
    ((pendingScripts st : List Script) : Multiset Script) =
      ((st.queue : List Script) : Multiset Script) +
        ((heldScripts st : List Script) : Multiset Script) := by
  unfold pendingScripts
  rw [Multiset.coe_add]

/-- Reduction equations for `stepW`, one per worker phase. -/
theorem stepW_eq_out (env : Env) (st : SysState) (w : Nat)
    (hw : st.phases[w]? = none) : stepW env st w = st := by
  unfold stepW
  rw [hw]

theorem stepW_eq_stopped (env : Env) (st : SysState) (w : Nat)
    (hw : st.phases[w]? = some .stopped) : stepW env st w = st := by
  unfold stepW
  rw [hw]

theorem stepW_eq_idle (env : Env) (st : SysState) (w : Nat)
    (hw : st.phases[w]? = some .idle) : stepW env st w = stepIdle st w := by
  unfold stepW
  rw [hw]

theorem stepW_eq_claimed (env : Env) (st : SysState) (w : Nat) (s : Script)
    (hw : st.phases[w]? = some (.claimed s)) : stepW env st w = stepClaimed env st w s := by
  unfold stepW
  rw [hw]

theorem stepW_eq_started (env : Env) (st : SysState) (w : Nat) (s : Script)
    (hw : st.phases[w]? = some (.started s)) : stepW env st w = stepStarted env st w s := by
  unfold stepW
  rw [hw]

/-- Preservation of the system invariant by one worker action. -/
theorem stepW_inv (env : Env) (input : List Script) (st : SysState) (w : Nat)
    (hinv : Inv env input st) : Inv env input (stepW env st w) := by
  obtain ⟨h1, h2, h3, h4⟩ := hinv
  cases hw : st.phases[w]? with
  | none => rw [stepW_eq_out env st w hw]; exact ⟨h1, h2, h3, h4⟩
  | some ph =>
    cases ph with
    | stopped => rw [stepW_eq_stopped env st w hw]; exact ⟨h1, h2, h3, h4⟩
    | idle =>
      rw [stepW_eq_idle env st w hw]
      unfold stepIdle
      cases hq : st.queue.getLast? with
      | none =>
        have hqe : st.queue = [] := List.getLast?_eq_none_iff.mp hq
        refine ⟨?_, h2, h3, fun _ => hqe⟩
        have hms := held_list_mset st.phases w .idle .stopped hw
        simp only [heldScript, Option.toList, Multiset.coe_nil, add_zero] at hms
        have hpend : ((pendingScripts {st with phases := st.phases.set w WorkerPhase.stopped} :
            List Script) : Multiset Script) =
            ((pendingScripts st : List Script) : Multiset Script) := by
          rw [pending_mset, pending_mset]
          have hheld : ((heldScripts {st with phases := st.phases.set w WorkerPhase.stopped} :
              List Script) : Multiset Script) =
              ((heldScripts st : List Script) : Multiset Script) := by
            simpa [heldScripts] using hms
          rw [hheld]
        simp only [← Multiset.map_coe] at h1 ⊢
        try dsimp only
        rw [hpend]
        exact h1
      | some s =>
        refine ⟨?_, h2, h3, ?_⟩
        · have hms := held_list_mset st.phases w .idle (.claimed s) hw
          simp only [heldScript, Option.toList, Multiset.coe_nil, add_zero,
            Multiset.coe_singleton] at hms
          have hqm := queue_pop_mset st.queue s hq
          have hpend : ((pendingScripts {st with
              queue := st.queue.dropLast,
              phases := st.phases.set w (WorkerPhase.claimed s)} :
              List Script) : Multiset Script) =
              ((pendingScripts st : List Script) : Multiset Script) := by
            rw [pending_mset, pending_mset]
            have hheld : ((heldScripts {st with
                queue := st.queue.dropLast,
                phases := st.phases.set w (WorkerPhase.claimed s)} :
                List Script) : Multiset Script) =
                ((heldScripts st : List Script) : Multiset Script) + {s} := by
              simpa [heldScripts] using hms
            rw [hheld]
            try dsimp only
            rw [← hqm]
            abel
          simp only [← Multiset.map_coe] at h1 ⊢
          try dsimp only
          rw [hpend]
          exact h1
        · rintro ⟨ph2, hmem, hstop⟩
          rcases List.mem_or_eq_of_mem_set hmem with hm | hm
          · have := h4 ⟨ph2, hm, hstop⟩
            rw [this] at hq
            exact Option.noConfusion hq
          · rw [hm] at hstop
            exact WorkerPhase.noConfusion hstop
    | claimed s =>
      rw [stepW_eq_claimed env st w s hw]
      unfold stepClaimed
      have haux : Inv env input {st with
          events := st.events ++ [OutputCommand.AddTask s.title],
          phases := st.phases.set w (WorkerPhase.started s)} := by
        refine ⟨?_, ?_, ?_, ?_⟩
        · have hms := held_list_mset st.phases w (.claimed s) (.started s) hw
          simp only [heldScript, Option.toList] at hms
          have hheld : ((heldScripts {st with
              events := st.events ++ [OutputCommand.AddTask s.title],
              phases := st.phases.set w (WorkerPhase.started s)} :
              List Script) : Multiset Script) =
              ((heldScripts st : List Script) : Multiset Script) := by
            have := add_right_cancel hms
            simpa [heldScripts] using this
          have hpend : ((pendingScripts {st with
              events := st.events ++ [OutputCommand.AddTask s.title],
              phases := st.phases.set w (WorkerPhase.started s)} :
              List Script) : Multiset Script) =
              ((pendingScripts st : List Script) : Multiset Script) := by
            rw [pending_mset, pending_mset, hheld]
          have hterm : terminalEvents (st.events ++ [OutputCommand.AddTask s.title]) =
              terminalEvents st.events := by
            rw [terminalEvents_append_one]
            simp [isTerminalEvent]
          simp only [← Multiset.map_coe] at h1 ⊢
          try dsimp only
          rw [hterm, hpend]
          exact h1
        · dsimp only
          rw [List.any_append, h2]
          simp [isFailureEvent]
        · dsimp only
          rw [List.mem_append]
          simp [h3]
        · rintro ⟨ph2, hmem, hstop⟩
          rcases List.mem_or_eq_of_mem_set hmem with hm | hm
          · exact h4 ⟨ph2, hm, hstop⟩
          · rw [hm] at hstop
            exact WorkerPhase.noConfusion hstop
      cases he : env s.path with
      | missing =>
        refine ⟨?_, ?_, ?_, ?_⟩
        · have hms := held_list_mset st.phases w (.claimed s) .idle hw
          simp only [heldScript, Option.toList, Multiset.coe_nil, add_zero,
            Multiset.coe_singleton] at hms
          have hpend : ((pendingScripts st : List Script) : Multiset Script) =
              ((pendingScripts {st with
                events := st.events ++
                  [OutputCommand.Error s.title (s.path ++ " does not exist")],
                allSuccessful := false,
                phases := st.phases.set w WorkerPhase.idle} :
                List Script) : Multiset Script) + {s} := by
            rw [pending_mset, pending_mset]
            have hheld : ((heldScripts {st with
                events := st.events ++
                  [OutputCommand.Error s.title (s.path ++ " does not exist")],
                allSuccessful := false,
                phases := st.phases.set w WorkerPhase.idle} :
                List Script) : Multiset Script) + {s} =
                ((heldScripts st : List Script) : Multiset Script) := by
              simpa [heldScripts] using hms
            rw [← hheld]
            abel
          have hfs : termEventOf env s =
              OutputCommand.Error s.title (s.path ++ " does not exist") := by
            simp [termEventOf, he]
          have hterm : ((terminalEvents (st.events ++
              [OutputCommand.Error s.title (s.path ++ " does not exist")]) :
              List OutputCommand) : Multiset OutputCommand) =
              ((terminalEvents st.events : List OutputCommand) : Multiset OutputCommand) +
                {OutputCommand.Error s.title (s.path ++ " does not exist")} := by
            rw [terminalEvents_append_one]
            simp [isTerminalEvent, ← Multiset.coe_add]
          simp only [← Multiset.map_coe] at h1 ⊢
          rw [hpend] at h1
          simp only [Multiset.map_add, Multiset.map_singleton, hfs] at h1
          try dsimp only
          rw [hterm, ← h1]
          abel
        · dsimp only
          rw [List.any_append]
          simp [isFailureEvent]
        · dsimp only
          rw [List.mem_append]
          simp [h3]
        · rintro ⟨ph2, hmem, hstop⟩
          rcases List.mem_or_eq_of_mem_set hmem with hm | hm
          · exact h4 ⟨ph2, hm, hstop⟩
          · rw [hm] at hstop
            exact WorkerPhase.noConfusion hstop
      | spawnFail => exact haux
      | runs result => exact haux
    | started s =>
      rw [stepW_eq_started env st w s hw]
      unfold stepStarted
      cases he : env s.path with
      | missing => exact ⟨h1, h2, h3, h4⟩
      | spawnFail => exact ⟨h1, h2, h3, h4⟩
      | runs result =>
        refine ⟨?_, ?_, ?_, ?_⟩
        · have hms := held_list_mset st.phases w (.started s) .idle hw
          simp only [heldScript, Option.toList, Multiset.coe_nil, add_zero,
            Multiset.coe_singleton] at hms
          have hpend : ((pendingScripts st : List Script) : Multiset Script) =
              ((pendingScripts {st with
                events := st.events ++
                  [OutputCommand.CompleteTask s.title result.success result.durationMs
                    (if result.success then none else some (failureOutput result))],
                allSuccessful := st.allSuccessful && result.success,
                phases := st.phases.set w WorkerPhase.idle} :
                List Script) : Multiset Script) + {s} := by
            rw [pending_mset, pending_mset]
            have hheld : ((heldScripts {st with
                events := st.events ++
                  [OutputCommand.CompleteTask s.title result.success result.durationMs
                    (if result.success then none else some (failureOutput result))],
                allSuccessful := st.allSuccessful && result.success,
                phases := st.phases.set w WorkerPhase.idle} :
                List Script) : Multiset Script) + {s} =
                ((heldScripts st : List Script) : Multiset Script) := by
              simpa [heldScripts] using hms
            rw [← hheld]
            abel
          have hfs : termEventOf env s =
              OutputCommand.CompleteTask s.title result.success result.durationMs
                (if result.success then none else some (failureOutput result)) := by
            simp [termEventOf, he]
          have hterm : ((terminalEvents (st.events ++
              [OutputCommand.CompleteTask s.title result.success result.durationMs
                (if result.success then none else some (failureOutput result))]) :
              List OutputCommand) : Multiset OutputCommand) =
              ((terminalEvents st.events : List OutputCommand) : Multiset OutputCommand) +
                {OutputCommand.CompleteTask s.title result.success result.durationMs
                  (if result.success then none else some (failureOutput result))} := by
            rw [terminalEvents_append_one]
            simp [isTerminalEvent, ← Multiset.coe_add]
          simp only [← Multiset.map_coe] at h1 ⊢
          rw [hpend] at h1
          simp only [Multiset.map_add, Multiset.map_singleton, hfs] at h1
          try dsimp only
          rw [hterm, ← h1]
          abel
        · dsimp only
          rw [List.any_append, h2]
          cases hany : st.events.any isFailureEvent <;> cases hsucc : result.success <;>
            simp [isFailureEvent, hsucc]
        · dsimp only
          rw [List.mem_append]
          simp [h3]
        · rintro ⟨ph2, hmem, hstop⟩
          rcases List.mem_or_eq_of_mem_set hmem with hm | hm
          · exact h4 ⟨ph2, hm, hstop⟩
          · rw [hm] at hstop
            exact WorkerPhase.noConfusion hstop

/-- The invariant is preserved by any whole schedule. -/
theorem exec_inv (env : Env) (input : List Script) (st : SysState) (sched : List Nat)
    (hinv : Inv env input st) : Inv env input (exec env st sched) := by
  induction sched generalizing st with
  | nil => exact hinv
  | cons w ws ih => exact ih _ (stepW_inv env input st w hinv)

/-- The initial state satisfies the invariant for the job list `main` built. -/
theorem inv_init (env : Env) (pairs : List (String × String)) (jobs : Nat) :
    Inv env (scriptsOf pairs) (initState pairs jobs) := by
  have hheld : heldScripts (initState pairs jobs) = [] := by
    rw [heldScripts, List.filterMap_eq_nil_iff]
    intro a ha
    rw [List.eq_of_mem_replicate ha]
    rfl
  refine ⟨?_, rfl, by simp [initState], ?_⟩
  · unfold pendingScripts
    rw [hheld]
    simp [initState, terminalEvents, List.map_reverse]
  · rintro ⟨ph, hmem, hstop⟩
    have : ph = WorkerPhase.idle := List.eq_of_mem_replicate hmem
    rw [this] at hstop
    exact WorkerPhase.noConfusion hstop

/-- One worker action never changes the number of workers. -/
theorem stepW_phases_length (env : Env) (st : SysState) (w : Nat) :
    (stepW env st w).phases.length = st.phases.length := by
  cases hw : st.phases[w]? with
  | none => rw [stepW_eq_out env st w hw]
  | some ph =>
    cases ph with
    | stopped => rw [stepW_eq_stopped env st w hw]
    | idle =>
      rw [stepW_eq_idle env st w hw]
      unfold stepIdle
      cases hq : st.queue.getLast? <;> simp
    | claimed s =>
      rw [stepW_eq_claimed env st w s hw]
      unfold stepClaimed
      cases he : env s.path <;> simp
    | started s =>
      rw [stepW_eq_started env st w s hw]
      unfold stepStarted
      cases he : env s.path <;> simp

/-- A whole schedule never changes the number of workers. -/
theorem exec_phases_length (env : Env) (st : SysState) (sched : List Nat) :
    (exec env st sched).phases.length = st.phases.length := by
  induction sched generalizing st with
  | nil => rfl
  | cons w ws ih =>
    show (exec env (stepW env st w) ws).phases.length = _
    rw [ih, stepW_phases_length]

/-- In any completed run with at least one worker, the terminal events are
exactly one per input job, and the final flag says whether every job
succeeded. -/
theorem exec_final (env : Env) (pairs : List (String × String)) (jobs : Nat)
    (sched : List Nat) (hJ : 1 ≤ jobs)
    (hstop : allStopped (exec env (initState pairs jobs) sched)) :
    ((terminalEvents (exec env (initState pairs jobs) sched).events :
        List OutputCommand) : Multiset OutputCommand) =
      ((List.map (termEventOf env) (scriptsOf pairs) :
        List OutputCommand) : Multiset OutputCommand) ∧
    (exec env (initState pairs jobs) sched).allSuccessful =
      (scriptsOf pairs).all (jobOk env) := by
  obtain ⟨h1, h2, h3, h4⟩ :=
    exec_inv env (scriptsOf pairs) (initState pairs jobs) sched (inv_init env pairs jobs)
  have hlen : (exec env (initState pairs jobs) sched).phases.length = jobs := by
    rw [exec_phases_length]
    simp [initState]
  obtain ⟨ph, hph⟩ := List.exists_mem_of_length_pos (by omega :
    0 < (exec env (initState pairs jobs) sched).phases.length)
  have hq : (exec env (initState pairs jobs) sched).queue = [] :=
    h4 ⟨ph, hph, hstop ph hph⟩
  have hheld : heldScripts (exec env (initState pairs jobs) sched) = [] := by
    rw [heldScripts, List.filterMap_eq_nil_iff]
    intro a ha
    rw [hstop a ha]
    rfl
  have hpend : pendingScripts (exec env (initState pairs jobs) sched) = [] := by
    unfold pendingScripts
    rw [hq, hheld]
    rfl
  rw [hpend] at h1
  simp only [List.map_nil, Multiset.coe_nil, add_zero] at h1
  refine ⟨h1, ?_⟩
  have hperm : (terminalEvents (exec env (initState pairs jobs) sched).events).Perm
      (List.map (termEventOf env) (scriptsOf pairs)) := Multiset.coe_eq_coe.mp h1
  have hgood : ∀ s ∈ scriptsOf pairs, env s.path ≠ PathView.spawnFail := by
    intro s hs contra
    have hmem : termEventOf env s ∈ List.map (termEventOf env) (scriptsOf pairs) :=
      List.mem_map_of_mem _ hs
    have hmem2 : termEventOf env s ∈
        terminalEvents (exec env (initState pairs jobs) sched).events :=
      hperm.mem_iff.mpr hmem
    have hterm := List.of_mem_filter hmem2
    rw [termEventOf, contra] at hterm
    exact Bool.noConfusion hterm
  rw [h2]
  rw [show (exec env (initState pairs jobs) sched).events.any isFailureEvent =
    (terminalEvents (exec env (initState pairs jobs) sched).events).any isFailureEvent
    from (any_isFailure_terminal _).symm]
  rw [perm_any hperm isFailureEvent, any_map_general]
  rw [show (scriptsOf pairs).any (fun s => isFailureEvent (termEventOf env s)) =
      (scriptsOf pairs).any (fun s => !(jobOk env s)) from ?_]
  · rw [not_any_not_eq_all]
  · apply any_congr_mem
    intro s hs
    cases hcase : env s.path with
    | missing => simp [termEventOf, hcase, isFailureEvent, jobOk]
    | spawnFail => exact absurd hcase (hgood s hs)
    | runs r => simp [termEventOf, hcase, isFailureEvent, jobOk]

/-! ## Claims about whole runs (C1, C2, C5, C6, C7) -/

/-- C1 (amended): for every job list of N jobs and every completed run with
at least one worker, exactly N terminal events (CompleteTask or Error) are
emitted, one per job — as multisets, the terminal events are exactly the
image of the job list under the per-job terminal event; no job is dropped
or reported twice, for any worker count of at least one. -/
theorem one_terminal_event_per_job (env : Env) (pairs : List (String × String))
    (jobs : Nat) (sched : List Nat) (hJ : 1 ≤ jobs)
    (hstop : allStopped (exec env (initState pairs jobs) sched)) :
    ((terminalEvents (exec env (initState pairs jobs) sched).events :
        List OutputCommand) : Multiset OutputCommand) =
      ((List.map (termEventOf env) (scriptsOf pairs) : List OutputCommand) :
        Multiset OutputCommand) ∧
    (terminalEvents (exec env (initState pairs jobs) sched).events).length =
      pairs.length := by
  obtain ⟨h1, _⟩ := exec_final env pairs jobs sched hJ hstop
  refine ⟨h1, ?_⟩
  have hcard := congrArg Multiset.card h1
  simpa [Multiset.coe_card, scriptsOf] using hcard

/-- Witness for C1: a one-job run on one worker, driven to completion. -/
theorem one_terminal_event_per_job_witness :
    ((terminalEvents (exec (fun _ => PathView.missing) (initState [("t", "p")] 1)
        [0, 0, 0]).events : List OutputCommand) : Multiset OutputCommand) =
      ((List.map (termEventOf (fun _ => PathView.missing)) (scriptsOf [("t", "p")]) :
        List OutputCommand) : Multiset OutputCommand) ∧
    (terminalEvents (exec (fun _ => PathView.missing) (initState [("t", "p")] 1)
        [0, 0, 0]).events).length = ([("t", "p")] : List (String × String)).length :=
  one_terminal_event_per_job (fun _ => PathView.missing) [("t", "p")] 1 [0, 0, 0]
    (by decide) (by decide)

/-- Counterexample to C1 as stated: with worker count 0 (`-j 0` is accepted),
`main` spawns no worker, joins nothing, and completes having emitted zero
terminal events for a one-job list. -/
theorem c1_zero_workers :
    allStopped (exec (fun _ => PathView.missing) (initState [("t", "p")] 0) []) ∧
    ([("t", "p")] : List (String × String)).length = 1 ∧
    terminalEvents (mainRun (fun _ => PathView.missing) [("t", "p")] 0 []).events = [] := by
  exact ⟨by decide, rfl, by decide⟩

/-- C2 (amended): with at least one worker, the process exits 0 exactly when
the job list is non-empty and every job succeeded; an empty job list exits 1
with no lifecycle event and independently of workers and schedule; and the
exit code is 1 exactly when the list is empty or some job failed. -/
theorem exit_code_characterization (env : Env) (pairs : List (String × String))
    (jobs : Nat) (sched : List Nat) (hJ : 1 ≤ jobs)
    (hstop : pairs ≠ [] → allStopped (exec env (initState pairs jobs) sched)) :
    (pairs = [] → mainRun env pairs jobs sched = ⟨[], 1⟩) ∧
    ((mainRun env pairs jobs sched).exitCode = 0 ↔
      pairs ≠ [] ∧ ∀ s ∈ scriptsOf pairs, jobOk env s = true) ∧
    ((mainRun env pairs jobs sched).exitCode = 1 ↔
      (pairs = [] ∨ ∃ s ∈ scriptsOf pairs, jobOk env s = false)) := by
  by_cases hne : pairs = []
  · subst hne
    refine ⟨fun _ => rfl, ?_, ?_⟩
    · simp [mainRun]
    · simp [mainRun]
  · obtain ⟨_, hflag⟩ := exec_final env pairs jobs sched hJ (hstop hne)
    have hmain : mainRun env pairs jobs sched =
        { events := (exec env (initState pairs jobs) sched).events ++
            [OutputCommand.Terminate],
          exitCode :=
            if (exec env (initState pairs jobs) sched).allSuccessful then 0 else 1 } := by
      unfold mainRun
      rw [if_neg (by simpa [List.isEmpty_iff] using hne)]
    have hexit : (mainRun env pairs jobs sched).exitCode =
        if (scriptsOf pairs).all (jobOk env) then 0 else 1 := by
      rw [hmain]
      try dsimp only
      rw [hflag]
    refine ⟨fun h => absurd h hne, ?_, ?_⟩
    · rw [hexit]
      cases hall : (scriptsOf pairs).all (jobOk env) with
      | true =>
        simp only [if_pos]
        constructor
        · intro _
          exact ⟨hne, fun s hs => List.all_eq_true.mp hall s hs⟩
        · intro _
          trivial
      | false =>
        simp only [if_neg, Bool.false_eq_true, if_false]
        constructor
        · intro h01
          exact absurd h01 (by omega)
        · rintro ⟨_, hall2⟩
          obtain ⟨s, hs, hbad⟩ := List.all_eq_false.mp hall
          exact absurd (hall2 s hs) (by simpa using hbad)
    · rw [hexit]
      cases hall : (scriptsOf pairs).all (jobOk env) with
      | true =>
        simp only [if_pos]
        constructor
        · intro h01
          exact absurd h01 (by omega)
        · rintro (h | ⟨s, hs, hbad⟩)
          · exact absurd h hne
          · have := List.all_eq_true.mp hall s hs
            rw [this] at hbad
            exact Bool.noConfusion hbad
      | false =>
        simp only [if_neg, Bool.false_eq_true, if_false]
        constructor
        · intro _
          obtain ⟨s, hs, hbad⟩ := List.all_eq_false.mp hall
          exact Or.inr ⟨s, hs, by simpa using hbad⟩
        · intro _
          trivial

/-- Witness for C2: one succeeding job on one worker exits 0; the
one-worker run is driven to completion. -/
theorem exit_code_characterization_witness :
    ((([("t", "p")] : List (String × String)) = [] →
      mainRun (fun _ => PathView.runs ⟨true, "", "", 0⟩) [("t", "p")] 1 [0, 0, 0, 0] =
        ⟨[], 1⟩) ∧
    ((mainRun (fun _ => PathView.runs ⟨true, "", "", 0⟩) [("t", "p")] 1
        [0, 0, 0, 0]).exitCode = 0 ↔
      ([("t", "p")] : List (String × String)) ≠ [] ∧
        ∀ s ∈ scriptsOf [("t", "p")],
          jobOk (fun _ => PathView.runs ⟨true, "", "", 0⟩) s = true) ∧
    ((mainRun (fun _ => PathView.runs ⟨true, "", "", 0⟩) [("t", "p")] 1
        [0, 0, 0, 0]).exitCode = 1 ↔
      (([("t", "p")] : List (String × String)) = [] ∨
        ∃ s ∈ scriptsOf [("t", "p")],
          jobOk (fun _ => PathView.runs ⟨true, "", "", 0⟩) s = false))) :=
  exit_code_characterization (fun _ => PathView.runs ⟨true, "", "", 0⟩) [("t", "p")] 1
    [0, 0, 0, 0] (by decide) (fun _ => by decide)

/-- Counterexample to C2 as stated: with worker count 0 the run completes
(there is no worker to join), the path of the single job is missing, yet the
process exits 0. -/
theorem c2_zero_workers :
    allStopped (exec (fun _ => PathView.missing) (initState [("t", "x")] 0) []) ∧
    (fun _ => PathView.missing : Env) "x" = PathView.missing ∧
    (mainRun (fun _ => PathView.missing) [("t", "x")] 0 []).exitCode = 0 :=
  ⟨by decide, rfl, by decide⟩

/-- Each single worker action leaves the flag unchanged or makes it false. -/
theorem stepW_flag_or (env : Env) (st : SysState) (w : Nat) :
    (stepW env st w).allSuccessful = st.allSuccessful ∨
      (stepW env st w).allSuccessful = false := by
  cases hw : st.phases[w]? with
  | none =>
    left
    rw [stepW_eq_out env st w hw]
  | some ph =>
    cases ph with
    | stopped =>
      left
      rw [stepW_eq_stopped env st w hw]
    | idle =>
      left
      rw [stepW_eq_idle env st w hw]
      unfold stepIdle
      cases hq : st.queue.getLast? <;> rfl
    | claimed s =>
      rw [stepW_eq_claimed env st w s hw]
      unfold stepClaimed
      cases he : env s.path with
      | missing => right; rfl
      | spawnFail => left; rfl
      | runs result => left; rfl
    | started s =>
      rw [stepW_eq_started env st w s hw]
      unfold stepStarted
      cases he : env s.path with
      | missing => left; rfl
      | spawnFail => left; rfl
      | runs result =>
        cases hs : result.success with
        | true =>
          left
          try dsimp only
          rw [hs, Bool.and_true]
        | false =>
          right
          try dsimp only
          rw [hs, Bool.and_false]

/-- Once false, the flag stays false for any remaining schedule. -/
theorem exec_flag_false (env : Env) (st : SysState) (sched : List Nat)
    (h : st.allSuccessful = false) : (exec env st sched).allSuccessful = false := by
  induction sched generalizing st with
  | nil => exact h
  | cons w ws ih =>
    show (exec env (stepW env st w) ws).allSuccessful = false
    rcases stepW_flag_or env st w with hcase | hcase
    · exact ih _ (hcase.trans h)
    · exact ih _ hcase

/-- C5: the Aggregate Success Flag starts true, every worker action leaves
it unchanged or sets it to false, and once false it remains false for the
rest of the run. -/
theorem success_flag_monotone (env : Env) (st : SysState) (w : Nat)
    (pairs : List (String × String)) (jobs : Nat) :
    (initState pairs jobs).allSuccessful = true ∧
    ((stepW env st w).allSuccessful = st.allSuccessful ∨
      (stepW env st w).allSuccessful = false) ∧
    (∀ sched : List Nat, st.allSuccessful = false →
      (exec env st sched).allSuccessful = false) :=
  ⟨rfl, stepW_flag_or env st w, fun sched h => exec_flag_false env st sched h⟩

/-- Witness for C5: a state with the flag already false keeps it false. -/
theorem success_flag_monotone_witness :
    (exec (fun _ => PathView.missing)
      ⟨[], [WorkerPhase.idle], [], false⟩ [0]).allSuccessful = false :=
  (success_flag_monotone (fun _ => PathView.missing)
    ⟨[], [WorkerPhase.idle], [], false⟩ 0 [] 0).2.2 [0] rfl

/-- C6: in every completed run on a non-empty job list, exactly one
`Terminate` is sent, it is sent only after every worker has been joined, and
the terminal event of every job is already in the channel before it. -/
theorem single_terminate_after_join (env : Env) (pairs : List (String × String))
    (jobs : Nat) (sched : List Nat) (hne : pairs ≠ []) (hJ : 1 ≤ jobs)
    (hstop : allStopped (exec env (initState pairs jobs) sched)) :
    (mainRun env pairs jobs sched).events =
      (exec env (initState pairs jobs) sched).events ++ [OutputCommand.Terminate] ∧
    OutputCommand.Terminate ∉ (exec env (initState pairs jobs) sched).events ∧
    (mainRun env pairs jobs sched).events.count OutputCommand.Terminate = 1 ∧
    ((terminalEvents (exec env (initState pairs jobs) sched).events :
        List OutputCommand) : Multiset OutputCommand) =
      ((List.map (termEventOf env) (scriptsOf pairs) : List OutputCommand) :
        Multiset OutputCommand) := by
  obtain ⟨h1, h2, h3, h4⟩ :=
    exec_inv env (scriptsOf pairs) (initState pairs jobs) sched (inv_init env pairs jobs)
  have hmainev : (mainRun env pairs jobs sched).events =
      (exec env (initState pairs jobs) sched).events ++ [OutputCommand.Terminate] := by
    unfold mainRun
    rw [if_neg (by simpa [List.isEmpty_iff] using hne)]
  refine ⟨hmainev, h3, ?_, (exec_final env pairs jobs sched hJ hstop).1⟩
  rw [hmainev, List.count_append, List.count_eq_zero.mpr h3]
  rfl

/-- Witness for C6 at a concrete completed one-worker run. -/
theorem single_terminate_after_join_witness :
    (mainRun (fun _ => PathView.missing) [("a", "b")] 1 [0, 0, 0]).events =
      (exec (fun _ => PathView.missing) (initState [("a", "b")] 1) [0, 0, 0]).events ++
        [OutputCommand.Terminate] ∧
    OutputCommand.Terminate ∉
      (exec (fun _ => PathView.missing) (initState [("a", "b")] 1) [0, 0, 0]).events ∧
    (mainRun (fun _ => PathView.missing) [("a", "b")] 1
      [0, 0, 0]).events.count OutputCommand.Terminate = 1 ∧
    ((terminalEvents (exec (fun _ => PathView.missing) (initState [("a", "b")] 1)
        [0, 0, 0]).events : List OutputCommand) : Multiset OutputCommand) =
      ((List.map (termEventOf (fun _ => PathView.missing)) (scriptsOf [("a", "b")]) :
        List OutputCommand) : Multiset OutputCommand) :=
  single_terminate_after_join (fun _ => PathView.missing) [("a", "b")] 1 [0, 0, 0]
    (by decide) (by decide) (by decide)

/-- C7: for a fixed job list, two completed runs that differ only in worker
count (both at least 1) and schedule end with the same Aggregate Success
Flag, and hence the same exit code. -/
theorem worker_count_irrelevant (env : Env) (pairs : List (String × String))
    (j1 j2 : Nat) (s1 s2 : List Nat) (hj1 : 1 ≤ j1) (hj2 : 1 ≤ j2)
    (hs1 : allStopped (exec env (initState pairs j1) s1))
    (hs2 : allStopped (exec env (initState pairs j2) s2)) :
    (exec env (initState pairs j1) s1).allSuccessful =
      (exec env (initState pairs j2) s2).allSuccessful ∧
    (mainRun env pairs j1 s1).exitCode = (mainRun env pairs j2 s2).exitCode := by
  have hf1 := (exec_final env pairs j1 s1 hj1 hs1).2
  have hf2 := (exec_final env pairs j2 s2 hj2 hs2).2
  have hflag : (exec env (initState pairs j1) s1).allSuccessful =
      (exec env (initState pairs j2) s2).allSuccessful := by
    rw [hf1, hf2]
  refine ⟨hflag, ?_⟩
  unfold mainRun
  by_cases hne : pairs.isEmpty
  · rw [if_pos hne, if_pos hne]
  · rw [if_neg hne, if_neg hne]
    try dsimp only
    rw [hflag]

/-- Witness for C7: the same one-job list run with 1 and with 2 workers. -/
theorem worker_count_irrelevant_witness :
    (exec (fun _ => PathView.missing) (initState [("t", "p")] 1) [0, 0, 0]).allSuccessful =
      (exec (fun _ => PathView.missing) (initState [("t", "p")] 2)
        [0, 0, 0, 1]).allSuccessful ∧
    (mainRun (fun _ => PathView.missing) [("t", "p")] 1 [0, 0, 0]).exitCode =
      (mainRun (fun _ => PathView.missing) [("t", "p")] 2 [0, 0, 0, 1]).exitCode :=
  worker_count_irrelevant (fun _ => PathView.missing) [("t", "p")] 1 2 [0, 0, 0]
    [0, 0, 0, 1] (by decide) (by decide) (by decide) (by decide)

end ScriptExec
